import Mathlib

/-!
Shallow embedding of the `qbm-rl-steering` actor-critic training core
(`qbm_rl_steering/core/qac.py` and `qbm_rl_steering/core/utils.py`).

Real numbers of the Python code are modelled by `ℚ`; numpy arrays by
`List ℚ` (vectors) and `List (List ℚ)` (row-major matrices).  The critic
capability (`QFunction` from `core/qbm.py`, not part of the sources) and
the keras actor network are opaque in the code and stay opaque here: they
enter as function parameters.  Randomness (numpy's generator, the

environment's `action_space.sample`) is modelled by passing the drawn
values explicitly.
-/

namespace QbmRlSteering

/-! ## Experience store: `ReplayBuffer` (`core/utils.py`, lines 6-34) -/

/-- One experience tuple, the unit stored by the replay buffer. -/
structure Transition where
  obs : List ℚ
  act : List ℚ
  rew : ℚ
  next_obs : List ℚ
  done : ℚ
  deriving DecidableEq, Repr, Inhabited

/-- `ReplayBuffer.__init__`: five parallel fixed-length arrays plus the
write cursor `ptr`, the fill count `size` and the capacity `max_size`. -/
structure ReplayBuffer where
  obs1_buf : List (List ℚ)
  obs2_buf : List (List ℚ)
  acts_buf : List (List ℚ)
  rews_buf : List ℚ
  done_buf : List ℚ
  ptr : Nat
  size : Nat
  max_size : Nat
  deriving Repr

/-- `ReplayBuffer(size, obs_dim, act_dim)`: all five arrays start as zeros
of length `size`; `ptr = 0`, `size = 0`. -/
def ReplayBuffer.init (size obs_dim act_dim : Nat) : ReplayBuffer :=
  { obs1_buf := List.replicate size (List.replicate obs_dim 0)
    obs2_buf := List.replicate size (List.replicate obs_dim 0)
    acts_buf := List.replicate size (List.replicate act_dim 0)
    rews_buf := List.replicate size 0
    done_buf := List.replicate size 0
    ptr := 0
    size := 0
    max_size := size }

/-- `ReplayBuffer.push`: write every component into slot `ptr`, advance
`ptr` modulo the capacity and increment `size` capped at the capacity. -/
def ReplayBuffer.push (b : ReplayBuffer) (t : Transition) : ReplayBuffer :=
  { obs1_buf := b.obs1_buf.set b.ptr t.obs
    obs2_buf := b.obs2_buf.set b.ptr t.next_obs
    acts_buf := b.acts_buf.set b.ptr t.act
    rews_buf := b.rews_buf.set b.ptr t.rew
    done_buf := b.done_buf.set b.ptr t.done
    ptr := (b.ptr + 1) % b.max_size
    size := min (b.size + 1) b.max_size
    max_size := b.max_size }

/-- Push a whole list of transitions in order. -/
def ReplayBuffer.pushMany (b : ReplayBuffer) (ts : List Transition) : ReplayBuffer :=
  ts.foldl ReplayBuffer.push b

/-- Model of `np.random.randint(low, high, size=n)`: `n` draws from the
half-open range `[low, high)` driven by an abstract generator `g`; numpy
raises `ValueError` when the range is empty, modelled by `none`. -/
def np_randint (g : Nat → Nat) (low high n : Nat) : Option (List Nat) :=
  if low < high then
    some ((List.range n).map (fun t => low + g t % (high - low)))
  else
    none

/-- What `ReplayBuffer.sample` returns: the five per-sample columns
`(s, a, r, s2, d)`. -/
structure SampleBatch where
  s : List (List ℚ)
  a : List (List ℚ)
  r : List ℚ
  s2 : List (List ℚ)
  d : List ℚ
  deriving DecidableEq, Repr

/-- `ReplayBuffer.sample(batch_size)`: draw `batch_size` indices uniformly
from `[0, size)` and gather the five buffers at those indices.  Fails (as
`np.random.randint` does) when `size = 0`. -/
def ReplayBuffer.sample (b : ReplayBuffer) (g : Nat → Nat) (batch_size : Nat) :
    Option SampleBatch :=
  match np_randint g 0 b.size batch_size with
  | none => none
  | some idxs =>
      some { s := idxs.map (fun i => b.obs1_buf.getD i [])
             a := idxs.map (fun i => b.acts_buf.getD i [])
             r := idxs.map (fun i => b.rews_buf.getD i 0)
             s2 := idxs.map (fun i => b.obs2_buf.getD i [])
             d := idxs.map (fun i => b.done_buf.getD i 0) }

/-- The transition reconstructed from slot `j` of the buffer. -/
def ReplayBuffer.slot (b : ReplayBuffer) (j : Nat) : Transition :=
  { obs := b.obs1_buf.getD j []
    act := b.acts_buf.getD j []
    rew := b.rews_buf.getD j 0
    next_obs := b.obs2_buf.getD j []
    done := b.done_buf.getD j 0 }

end QbmRlSteering

namespace QbmRlSteering

/-! ### Lemmas about the buffer ring structure -/

theorem ReplayBuffer.pushMany_append (b : ReplayBuffer) (ts : List Transition)
    (t : Transition) :
    ReplayBuffer.pushMany b (ts ++ [t]) = (ReplayBuffer.pushMany b ts).push t := by
  simp [ReplayBuffer.pushMany]

/-- Index of the last push that landed in slot `j`, when `N` transitions
have been pushed into a fresh buffer of capacity `C`. -/
def lastWriter (C N j : Nat) : Nat :=
  j + C * ((N - 1 - j) / C)

theorem ReplayBuffer.size_push_le (b : ReplayBuffer) (t : Transition) :
    (b.push t).size ≤ b.max_size := by
  simp [ReplayBuffer.push]

theorem lastWriter_succ_self (C N : Nat) (hC : 0 < C) :
    lastWriter C (N + 1) (N % C) = N := by
  have hmd : N % C + C * (N / C) = N := Nat.mod_add_div N C
  have h1 : N + 1 - 1 - N % C = C * (N / C) := by omega
  have h2 : C * (N / C) / C = N / C := Nat.mul_div_cancel_left _ hC
  simp only [lastWriter, h1, h2]
  exact hmd

theorem lastWriter_succ_ne (C N j : Nat) (hC : 0 < C) (hj : j < C)
    (hjN : j < N) (hne : j ≠ N % C) :
    lastWriter C (N + 1) j = lastWriter C N j := by
  have hd : N + 1 - 1 - j = (N - 1 - j) + 1 := by omega
  have hnd : ¬ C ∣ (N - 1 - j) + 1 := by
    intro hdvd
    have hdd : C ∣ N - j := by
      have : N - j = (N - 1 - j) + 1 := by omega
      rw [this]; exact hdvd
    apply hne
    obtain ⟨q, hq⟩ := hdd
    have hjq : N = j + C * q := by omega
    calc j = j % C := (Nat.mod_eq_of_lt hj).symm
      _ = (j + C * q) % C := (Nat.add_mul_mod_self_left j C q).symm
      _ = N % C := by rw [hjq]
  simp only [lastWriter, hd, Nat.succ_div_of_not_dvd hnd]

theorem lastWriter_bounds (C N j : Nat) (hC : 0 < C) (hj : j < C)
    (hjN : j < N) :
    N - C ≤ lastWriter C N j ∧ lastWriter C N j < N := by
  have he : C * ((N - 1 - j) / C) + (N - 1 - j) % C = N - 1 - j :=
    Nat.div_add_mod (N - 1 - j) C
  have hm : (N - 1 - j) % C < C := Nat.mod_lt _ hC
  unfold lastWriter
  omega

/-- Master description of a fresh buffer after pushing `ts`:
capacity and array lengths are preserved, `ptr` wraps modulo `C`,
`size = min N C`, and slot `j` holds the transition written by the last
push whose index is congruent to `j` modulo `C`. -/
theorem ReplayBuffer.pushMany_spec (C od ad : Nat) (hC : 0 < C)
    (ts : List Transition) :
    (ReplayBuffer.pushMany (ReplayBuffer.init C od ad) ts).max_size = C ∧
    (ReplayBuffer.pushMany (ReplayBuffer.init C od ad) ts).obs1_buf.length = C ∧
    (ReplayBuffer.pushMany (ReplayBuffer.init C od ad) ts).obs2_buf.length = C ∧
    (ReplayBuffer.pushMany (ReplayBuffer.init C od ad) ts).acts_buf.length = C ∧
    (ReplayBuffer.pushMany (ReplayBuffer.init C od ad) ts).rews_buf.length = C ∧
    (ReplayBuffer.pushMany (ReplayBuffer.init C od ad) ts).done_buf.length = C ∧
    (ReplayBuffer.pushMany (ReplayBuffer.init C od ad) ts).ptr = ts.length % C ∧
    (ReplayBuffer.pushMany (ReplayBuffer.init C od ad) ts).size = min ts.length C ∧
    (∀ j, j < min ts.length C →
      (ReplayBuffer.pushMany (ReplayBuffer.init C od ad) ts).slot j =
        ts.getD (lastWriter C ts.length j) default) := by
  induction ts using List.reverseRecOn with
  | nil =>
      refine ⟨rfl, ?_, ?_, ?_, ?_, ?_, ?_, ?_, ?_⟩ <;>
        simp [ReplayBuffer.pushMany, ReplayBuffer.init]
  | append_singleton ts t ih =>
      obtain ⟨hmax, h1, h2, h3, h4, h5, hptr, hsize, hslot⟩ := ih
      rw [ReplayBuffer.pushMany_append]
      set b := ReplayBuffer.pushMany (ReplayBuffer.init C od ad) ts with hb
      have hptrlt : b.ptr < C := by rw [hptr]; exact Nat.mod_lt _ hC
      have hptr' : (b.push t).ptr = (ts ++ [t]).length % C := by
        have hadd : (ts.length % C + 1) % C = (ts.length + 1) % C := by
          conv_lhs => rw [Nat.add_mod]
          conv_rhs => rw [Nat.add_mod]
          rw [Nat.mod_mod_of_dvd _ (dvd_refl C)]
        simp [ReplayBuffer.push, hmax, hptr, hadd]
      refine ⟨by simp [ReplayBuffer.push, hmax], ?_, ?_, ?_, ?_, ?_, hptr', ?_, ?_⟩
      · simp [ReplayBuffer.push, h1]
      · simp [ReplayBuffer.push, h2]
      · simp [ReplayBuffer.push, h3]
      · simp [ReplayBuffer.push, h4]
      · simp [ReplayBuffer.push, h5]
      · simp only [ReplayBuffer.push, hmax, hsize, List.length_append,
          List.length_singleton]
        omega
      · intro j hj
        simp only [List.length_append, List.length_singleton] at hj
        by_cases hcase : j = ts.length % C
        · subst hcase
          have hlw : lastWriter C (ts.length + 1) (ts.length % C) = ts.length :=
            lastWriter_succ_self C ts.length hC
          have hget : (ts ++ [t]).getD ts.length default = t := by
            simp [List.getD_eq_getElem?_getD, List.getElem?_append_right (le_refl _)]
          simp only [List.length_append, List.length_singleton, hlw, hget]
          have hpe : b.ptr = ts.length % C := hptr
          simp [ReplayBuffer.slot, ReplayBuffer.push, hpe,
            List.getD_eq_getElem?_getD, List.getElem?_set_self,
            h1, h2, h3, h4, h5, Nat.mod_lt _ hC]
        · have hjC : j < C := by omega
          have hjN : j < min ts.length C := by
            rcases Nat.lt_or_ge ts.length C with h | h
            · have := Nat.mod_eq_of_lt h
              omega
            · omega
          have hlw : lastWriter C (ts.length + 1) j = lastWriter C ts.length j :=
            lastWriter_succ_ne C ts.length j hC hjC (by omega) hcase
          have hlt : lastWriter C ts.length j < ts.length :=
            (lastWriter_bounds C ts.length j hC hjC (by omega)).2
          have hget : (ts ++ [t]).getD (lastWriter C ts.length j) default =
              ts.getD (lastWriter C ts.length j) default := by
            simp [List.getD_eq_getElem?_getD, List.getElem?_append_left hlt]
          have hslotj : (b.push t).slot j = b.slot j := by
            have hne : b.ptr ≠ j := by rw [hptr]; exact fun h => hcase h.symm
            simp [ReplayBuffer.slot, ReplayBuffer.push,
              List.getD_eq_getElem?_getD, List.getElem?_set_ne hne]
          simp only [List.length_append, List.length_singleton, hlw, hget, hslotj]
          exact hslot j hjN

/-- The `j`-th transition of a sample batch, reassembled from the five
returned columns. -/
def SampleBatch.atIdx (out : SampleBatch) (j : Nat) : Transition :=
  { obs := out.s.getD j []
    act := out.a.getD j []
    rew := out.r.getD j 0
    next_obs := out.s2.getD j []
    done := out.d.getD j 0 }

theorem ReplayBuffer.sample_at (b : ReplayBuffer) (g : Nat → Nat) (n : Nat)
    (out : SampleBatch) (h : b.sample g n = some out) (hb : 0 < b.size)
    (j : Nat) (hj : j < n) :
    out.atIdx j = b.slot (g j % b.size) := by
  have hidx : np_randint g 0 b.size n =
      some ((List.range n).map (fun t => 0 + g t % (b.size - 0))) := by
    simp only [np_randint, if_pos hb]
  unfold ReplayBuffer.sample at h
  rw [hidx] at h
  simp only [Option.some.injEq] at h
  subst h
  simp [SampleBatch.atIdx, ReplayBuffer.slot, List.getD_eq_getElem?_getD,
    List.getElem?_map, List.getElem?_range hj]

/-- Claim C7: for a fresh buffer of capacity `C`, after `N > C` pushes the
size stays bounded by `C` after every push, the write cursor wraps modulo
`C`, and every transition returned by `sample` is one of the most recent
`C` pushed transitions (no overwritten entry is ever returned). -/
theorem replayBuffer_fifo_freshness (C od ad : Nat) (hC : 0 < C)
    (ts : List Transition) (hN : C < ts.length) :
    (∀ k, ((ReplayBuffer.init C od ad).pushMany (ts.take k)).size ≤ C) ∧
    ((ReplayBuffer.init C od ad).pushMany ts).ptr = ts.length % C ∧
    (∀ g n out, ((ReplayBuffer.init C od ad).pushMany ts).sample g n = some out →
      ∀ j, j < n → ∃ m, ts.length - C ≤ m ∧ m < ts.length ∧
        out.atIdx j = ts.getD m default) := by
  obtain ⟨hmax, h1, h2, h3, h4, h5, hptr, hsize, hslot⟩ :=
    ReplayBuffer.pushMany_spec C od ad hC ts
  refine ⟨?_, hptr, ?_⟩
  · intro k
    obtain ⟨_, _, _, _, _, _, _, hsz, _⟩ :=
      ReplayBuffer.pushMany_spec C od ad hC (ts.take k)
    rw [hsz]; omega
  · intro g n out hout j hj
    have hsizeC : ((ReplayBuffer.init C od ad).pushMany ts).size = C := by
      rw [hsize]; omega
    have hbpos : 0 < ((ReplayBuffer.init C od ad).pushMany ts).size := by
      rw [hsizeC]; exact hC
    have hat := ReplayBuffer.sample_at _ g n out hout hbpos j hj
    rw [hsizeC] at hat
    have hiC : g j % C < C := Nat.mod_lt _ hC
    refine ⟨lastWriter C ts.length (g j % C),
      (lastWriter_bounds C ts.length _ hC hiC (by omega)).1,
      (lastWriter_bounds C ts.length _ hC hiC (by omega)).2, ?_⟩
    rw [hat]
    exact hslot (g j % C) (by omega)

/-- Concrete transitions used to instantiate the C7 theorem. -/
def tsW : List Transition :=
  [⟨[1], [1], 1, [1], 0⟩, ⟨[2], [2], 2, [2], 0⟩, ⟨[3], [3], 3, [3], 0⟩]

/-- Witness for C7: capacity 2, three pushes, a concrete draw; the sampled
transition is the third (most recent) push. -/
theorem replayBuffer_fifo_freshness_witness :
    0 < 2 ∧ 2 < tsW.length ∧
    (∃ m, tsW.length - 2 ≤ m ∧ m < tsW.length ∧
      SampleBatch.atIdx ⟨[[3]], [[3]], [3], [[3]], [0]⟩ 0 = tsW.getD m default) :=
  ⟨by decide, by decide,
    (replayBuffer_fifo_freshness 2 1 1 (by decide) tsW (by decide)).2.2
      (fun _ => 0) 1 ⟨[[3]], [[3]], [3], [[3]], [0]⟩ (by decide) 0 (by decide)⟩

/-- Claim C8: a buffer that has never been pushed (`size = 0`) can never be
sampled: `sample` fails for every positive batch size. -/
theorem sample_empty_buffer_fails (b : ReplayBuffer) (hb : b.size = 0)
    (g : Nat → Nat) (n : Nat) (hn : 1 ≤ n) :
    b.sample g n = none := by
  simp [ReplayBuffer.sample, np_randint, hb]

/-- Witness for C8: the freshly initialized buffer has size 0 and sampling
one element fails. -/
theorem sample_empty_buffer_fails_witness :
    (ReplayBuffer.init 5 2 1).size = 0 ∧ 1 ≤ 1 ∧
    (ReplayBuffer.init 5 2 1).sample (fun _ => 0) 1 = none :=
  ⟨rfl, le_refl 1,
    sample_empty_buffer_fails (ReplayBuffer.init 5 2 1) rfl (fun _ => 0) 1 (le_refl 1)⟩

/-! ## Action selection: `QuantumActorCritic.get_action` (`core/qac.py`, lines 90-101)
and the action-limit computation from `__init__` (lines 28-30). -/

/-- Input to `get_action`: a single state vector (1-D) or a batch (2-D). -/
inductive StatesInput where
  | oneD (s : List ℚ)
  | twoD (s : List (List ℚ))

/-- `states.reshape(1, -1)` promotion of a 1-D input to a batch of one. -/
def StatesInput.promote : StatesInput → List (List ℚ)
  | .oneD s => [s]
  | .twoD s => s

/-- `self.action_limit = max(max(np.abs(high)), max(np.abs(low)))`. -/
def actionLimit (low high : List ℚ) : ℚ :=
  max ((high.map (fun x => |x|)).foldl max 0)
    ((low.map (fun x => |x|)).foldl max 0)

/-- `np.clip(x, -limit, limit)` on one scalar. -/
def clipTo (limit x : ℚ) : ℚ :=
  max (-limit) (min x limit)

/-- `QuantumActorCritic.get_action`.  `predict` is the opaque local actor
network (`actor.predict_on_batch`); `randn` is the vector drawn by
`np.random.randn(action_n)`, broadcast over the batch rows; `noise = none`
selects the default `action_noise_scale`.  Noise and clipping apply only
when the effective noise is nonzero. -/
def get_action (predict : List (List ℚ) → List (List ℚ))
    (action_noise_scale action_limit : ℚ) (states : StatesInput)
    (noise : Option ℚ) (episode : ℚ) (randn : List ℚ) : List (List ℚ) :=
  let ν := noise.getD action_noise_scale
  let action := predict states.promote
  if ν ≠ 0 then
    (action.map (fun row =>
      (row.zip randn).map (fun p => p.1 + ν / episode * p.2))).map
        (fun row => row.map (clipTo action_limit))
  else
    action

/-- Claim C10: with `noise = 0`, `get_action` returns exactly the local
actor's batched prediction on the (possibly 1-row-promoted) states — no
noise is added and no clipping is applied, whatever the prediction is. -/
theorem get_action_zero_noise_is_raw_prediction
    (predict : List (List ℚ) → List (List ℚ))
    (action_noise_scale action_limit : ℚ) (states : StatesInput)
    (episode : ℚ) (randn : List ℚ) :
    get_action predict action_noise_scale action_limit states (some 0)
      episode randn = predict states.promote := by
  simp [get_action]

theorem le_foldl_max (l : List ℚ) (a : ℚ) : a ≤ l.foldl max a := by
  induction l generalizing a with
  | nil => exact le_refl a
  | cons x l ih => exact le_trans (le_max_left a x) (ih (max a x))

theorem actionLimit_nonneg (low high : List ℚ) : 0 ≤ actionLimit low high :=
  le_trans (le_foldl_max _ 0) (le_max_left _ _)

/-- Claim C4 counterexample: with declared action bounds `low = [0]`,
`high = [1]` the computed symmetric limit is `1`, and a noisy action can
land strictly below the declared lower bound `0`. -/
theorem get_action_outside_declared_bounds :
    ((get_action (fun _ => [[0]]) (15/100) (actionLimit [0] [1])
        (StatesInput.twoD [[0]]) (some 1) 1 [-(1/2)]).getD 0 []).getD 0 0 <
      ([0] : List ℚ).getD 0 0 := by
  have hL : actionLimit [0] [1] = 1 := by
    norm_num [actionLimit, abs_eq_max_neg, max_def]
  norm_num [get_action, clipTo, StatesInput.promote, hL, max_def, min_def]

/-- Claim C4 (amended): for every nonzero noise value, every episode index
and every input, `get_action` adds noise scaled by `noise / episode` and
clips every component to the symmetric range
`[-action_limit, action_limit]` with
`action_limit = max(max|high|, max|low|)` (which coincides with the
declared bounds when they are symmetric, e.g. `[-1, 1]`). -/
theorem get_action_clipped_to_symmetric_limit
    (predict : List (List ℚ) → List (List ℚ))
    (action_noise_scale : ℚ) (low high : List ℚ) (states : StatesInput)
    (ν : ℚ) (hν : ν ≠ 0) (episode : ℚ) (randn : List ℚ) :
    (∀ row ∈ get_action predict action_noise_scale (actionLimit low high)
        states (some ν) episode randn,
      ∀ x ∈ row, -(actionLimit low high) ≤ x ∧ x ≤ actionLimit low high) ∧
    get_action predict action_noise_scale (actionLimit low high)
        states (some ν) episode randn =
      (predict states.promote).map (fun row =>
        (row.zip randn).map (fun p =>
          clipTo (actionLimit low high) (p.1 + ν / episode * p.2))) := by
  constructor
  · intro row hrow x hx
    simp only [get_action, Option.getD_some, if_pos hν, List.mem_map] at hrow
    obtain ⟨row', _, rfl⟩ := hrow
    simp only [List.mem_map] at hx
    obtain ⟨y, _, rfl⟩ := hx
    have hL : 0 ≤ actionLimit low high := actionLimit_nonneg low high
    constructor
    · exact le_max_left _ _
    · exact max_le (by linarith) (min_le_right _ _)
  · simp [get_action, if_pos hν, List.map_map]

/-- Witness for the amended C4: symmetric bounds `[-1, 1]`, a raw
prediction `2` pushed to `12` by noise, clipped back into `[-1, 1]`. -/
theorem get_action_clipped_to_symmetric_limit_witness :
    (10 : ℚ) ≠ 0 ∧
    (-(actionLimit [-1] [1]) ≤ (1 : ℚ) ∧ (1 : ℚ) ≤ actionLimit [-1] [1]) := by
  have hL : actionLimit [-1] [1] = 1 := by
    norm_num [actionLimit, abs_eq_max_neg, max_def]
  refine ⟨by norm_num, ?_⟩
  refine (get_action_clipped_to_symmetric_limit (fun _ => [[2]]) (15/100)
      [-1] [1] (StatesInput.twoD [[0]]) 10 (by norm_num) 1 [1]).1 [1] ?_ 1 ?_
  · norm_num [get_action, clipTo, StatesInput.promote, hL, max_def, min_def]
  · simp

/-! ## Gradient bridge: `QuantumActorCritic.get_action_derivative`
(`core/qac.py`, lines 218-242). -/

/-- Arguments of one batched critic call
(`critic.calculate_q_value_on_batch(states, actions)`). -/
abbrev BatchCall := List (List ℚ) × List (List ℚ)

/-- `actions_tmp = np.array(actions).copy(); actions_tmp[:, i] += eps`:
add `eps` to column `i` of every row. -/
def perturbCol (i : Nat) (eps : ℚ) (actions : List (List ℚ)) : List (List ℚ) :=
  actions.map (fun row => row.set i (row.getD i 0 + eps))

/-- `grads[:, i] = col` on a row-major matrix. -/
def setColumn (g : List (List ℚ)) (i : Nat) (col : List ℚ) : List (List ℚ) :=
  (g.zip col).map (fun p => p.1.set i p.2)

/-- Column `i` of a row-major matrix. -/
def columnOf (g : List (List ℚ)) (i : Nat) : List ℚ :=
  g.map (fun row => row.getD i 0)

/-- `grads.T` for a matrix with `cols` columns. -/
def transposeMat (cols : Nat) (g : List (List ℚ)) : List (List ℚ) :=
  (List.range cols).map (columnOf g)

/-- The finite-difference column written by loop iteration `i`:
`(qeps_plus - qeps_minus) / (2 * epsilon)` over the whole batch. -/
def fdColumn (Qb : List (List ℚ) → List (List ℚ) → List ℚ)
    (states actions : List (List ℚ)) (eps : ℚ) (i : Nat) : List ℚ :=
  ((Qb states (perturbCol i eps actions)).zip
    (Qb states (perturbCol i (-eps) actions))).map
      (fun p => (p.1 - p.2) / (2 * eps))

/-- `QuantumActorCritic.get_action_derivative`: start from
`grads = np.zeros((replay_batch_size, action_n))`, fill column `i` with the
central finite difference for action coordinate `i` (one batched critic
call for `qeps_plus` and one for `qeps_minus`), and return `grads.T`.
The second component records the batched critic calls in order. -/
def get_action_derivative (Qb : List (List ℚ) → List (List ℚ) → List ℚ)
    (replay_batch_size action_n : Nat) (states actions : List (List ℚ))
    (eps : ℚ) : List (List ℚ) × List BatchCall :=
  let init : List (List ℚ) × List BatchCall :=
    (List.replicate replay_batch_size (List.replicate action_n 0), [])
  let res := (List.range action_n).foldl
    (fun acc i =>
      let actions_tmp1 := perturbCol i eps actions
      let qeps_plus := Qb states actions_tmp1
      let actions_tmp2 := perturbCol i (-eps) actions
      let qeps_minus := Qb states actions_tmp2
      let grad_ := (qeps_plus.zip qeps_minus).map (fun p => (p.1 - p.2) / (2 * eps))
      (setColumn acc.1 i grad_,
        acc.2 ++ [(states, actions_tmp1), (states, actions_tmp2)]))
    init
  (transposeMat action_n res.1, res.2)

/-- The unit vector `e_i` in an `n`-dimensional action space. -/
def unitVec (n i : Nat) : List ℚ :=
  (List.range n).map (fun k => if k = i then 1 else 0)

theorem length_setColumn (g : List (List ℚ)) (i : Nat) (col : List ℚ)
    (h : col.length = g.length) :
    (setColumn g i col).length = g.length := by
  simp [setColumn, List.length_zip, h]

theorem mem_setColumn_length (g : List (List ℚ)) (i : Nat) (col : List ℚ)
    (A : Nat) (hg : ∀ row ∈ g, row.length = A) :
    ∀ row ∈ setColumn g i col, row.length = A := by
  intro row hrow
  simp only [setColumn, List.mem_map] at hrow
  obtain ⟨p, hp, rfl⟩ := hrow
  rw [List.length_set]
  exact hg p.1 (List.of_mem_zip hp).1

theorem columnOf_setColumn_self (g : List (List ℚ)) (i : Nat) (col : List ℚ)
    (hlen : col.length = g.length) (hrow : ∀ r ∈ g, i < r.length) :
    columnOf (setColumn g i col) i = col := by
  induction g generalizing col with
  | nil =>
      cases col with
      | nil => rfl
      | cons c cs => simp at hlen
  | cons r g ih =>
      cases col with
      | nil => simp at hlen
      | cons c cs =>
          simp only [setColumn, columnOf, List.zip_cons_cons, List.map_cons,
            List.cons.injEq]
          constructor
          · have := hrow r (by simp)
            simp only [List.getD_eq_getElem?_getD]
            rw [List.getElem?_set_self this]
            rfl
          · simpa [setColumn, columnOf] using
              ih cs (by simpa using hlen) (fun r hr => hrow r (by simp [hr]))

theorem columnOf_setColumn_ne (g : List (List ℚ)) (i i' : Nat) (col : List ℚ)
    (h : i' ≠ i) (hlen : col.length = g.length) :
    columnOf (setColumn g i col) i' = columnOf g i' := by
  induction g generalizing col with
  | nil =>
      cases col with
      | nil => rfl
      | cons c cs => simp at hlen
  | cons r g ih =>
      cases col with
      | nil => simp at hlen
      | cons c cs =>
          simp only [setColumn, columnOf, List.zip_cons_cons, List.map_cons,
            List.cons.injEq]
          constructor
          · simp [List.getD_eq_getElem?_getD,
              List.getElem?_set_ne (fun hh => h hh.symm)]
          · simpa [setColumn, columnOf] using ih cs (by simpa using hlen)

/-- One iteration of the `get_action_derivative` loop (named form of the
fold body, used to state the loop invariant). -/
def gadStep (Qb : List (List ℚ) → List (List ℚ) → List ℚ)
    (states actions : List (List ℚ)) (eps : ℚ)
    (acc : List (List ℚ) × List BatchCall) (i : Nat) :
    List (List ℚ) × List BatchCall :=
  (setColumn acc.1 i (fdColumn Qb states actions eps i),
    acc.2 ++ [(states, perturbCol i eps actions),
              (states, perturbCol i (-eps) actions)])

theorem get_action_derivative_eq_fold
    (Qb : List (List ℚ) → List (List ℚ) → List ℚ)
    (B A : Nat) (states actions : List (List ℚ)) (eps : ℚ) :
    get_action_derivative Qb B A states actions eps =
      (transposeMat A ((List.range A).foldl (gadStep Qb states actions eps)
        (List.replicate B (List.replicate A 0), [])).1,
       ((List.range A).foldl (gadStep Qb states actions eps)
        (List.replicate B (List.replicate A 0), [])).2) := rfl

theorem fdColumn_length (Qb : List (List ℚ) → List (List ℚ) → List ℚ)
    (states actions : List (List ℚ)) (eps : ℚ) (i : Nat) (B : Nat)
    (hQ : ∀ ss as, (Qb ss as).length = ss.length)
    (hB : states.length = B) :
    (fdColumn Qb states actions eps i).length = B := by
  simp [fdColumn, hQ, hB]

theorem gad_loop_spec (Qb : List (List ℚ) → List (List ℚ) → List ℚ)
    (B A : Nat) (states actions : List (List ℚ)) (eps : ℚ)
    (hQ : ∀ ss as, (Qb ss as).length = ss.length)
    (hB : states.length = B) :
    ∀ k, k ≤ A →
      (((List.range k).foldl (gadStep Qb states actions eps)
        (List.replicate B (List.replicate A 0), [])).1.length = B) ∧
      (∀ row ∈ ((List.range k).foldl (gadStep Qb states actions eps)
        (List.replicate B (List.replicate A 0), [])).1, row.length = A) ∧
      (∀ i, i < k →
        columnOf (((List.range k).foldl (gadStep Qb states actions eps)
          (List.replicate B (List.replicate A 0), [])).1) i =
          fdColumn Qb states actions eps i) ∧
      (((List.range k).foldl (gadStep Qb states actions eps)
        (List.replicate B (List.replicate A 0), [])).2 =
        (List.range k).flatMap (fun i =>
          [(states, perturbCol i eps actions),
           (states, perturbCol i (-eps) actions)])) := by
  intro k
  induction k with
  | zero =>
      intro _
      refine ⟨by simp, ?_, by omega, by simp⟩
      intro row hrow
      simp only [List.range_zero, List.foldl_nil] at hrow
      simp [List.eq_of_mem_replicate hrow]
  | succ k ih =>
      intro hk
      obtain ⟨hL, hR, hcol, hcalls⟩ := ih (by omega)
      rw [List.range_succ, List.foldl_append]
      set prev := (List.range k).foldl (gadStep Qb states actions eps)
        (List.replicate B (List.replicate A 0), []) with hprev
      simp only [List.foldl_cons, List.foldl_nil]
      have hfd : (fdColumn Qb states actions eps k).length = B :=
        fdColumn_length Qb states actions eps k B hQ hB
      refine ⟨?_, ?_, ?_, ?_⟩
      · rw [gadStep]
        rw [length_setColumn prev.1 k _ (by rw [hfd, hL])]
        exact hL
      · rw [gadStep]
        exact mem_setColumn_length prev.1 k _ A hR
      · intro i hik
        by_cases hik' : i = k
        · subst hik'
          rw [gadStep]
          exact columnOf_setColumn_self prev.1 i _ (by rw [hfd, hL])
            (fun r hr => by rw [hR r hr]; omega)
        · rw [gadStep]
          rw [columnOf_setColumn_ne prev.1 k i _ hik' (by rw [hfd, hL])]
          exact hcol i (by omega)
      · rw [gadStep, hcalls, List.flatMap_append]
        simp

theorem flatMap_pair_length (l : List Nat) (f g : Nat → BatchCall) :
    (l.flatMap (fun i => [f i, g i])).length = 2 * l.length := by
  induction l with
  | nil => simp
  | cons a l ih => simp [ih]; omega

/-- `row + eps * e_i` agrees with the in-place column perturbation
`row[i] += eps` whenever `row` has length `A` and `i < A`. -/
theorem perturbCol_eq_add_unitVec (actions : List (List ℚ)) (A i : Nat)
    (hA : ∀ row ∈ actions, row.length = A) (hi : i < A) (eps : ℚ) :
    perturbCol i eps actions =
      actions.map (fun row =>
        List.zipWith (fun x y => x + eps * y) row (unitVec A i)) := by
  unfold perturbCol
  apply List.map_congr_left
  intro row hrow
  have hlen := hA row hrow
  have hiu : i < row.length := by omega
  apply List.ext_getElem
  · rw [List.length_set, List.length_zipWith, unitVec, List.length_map,
      List.length_range, hlen, min_self]
  · intro k h1 h2
    rw [List.getElem_zipWith]
    have hk : k < A := by
      have := h1
      rw [List.length_set] at this
      omega
    have hbk : k < (unitVec A i).length := by
      simp [unitVec]
      omega
    have hu : (unitVec A i)[k] = if k = i then (1 : ℚ) else 0 := by
      simp [unitVec]
    rw [hu, List.getElem_set]
    by_cases hki : i = k
    · subst hki
      rw [if_pos rfl, if_pos rfl]
      rw [List.getD_eq_getElem?_getD, List.getElem?_eq_getElem hiu]
      simp
    · rw [if_neg hki, if_neg (fun h => hki h.symm)]
      simp

/-- Claim C1: on a minibatch of `replay_batch_size` samples,
`get_action_derivative` returns a `[action_dim, batch_size]` matrix whose
entry `(i, j)` is the central finite difference
`(Q(states, actions + eps*e_i)_j - Q(states, actions - eps*e_i)_j)/(2*eps)`
of the batched critic `Qb`, and the loop issues exactly one batched critic
call for `qeps_plus` and one for `qeps_minus` per perturbed dimension
(`2 * action_dim` batched calls in total). -/
theorem get_action_derivative_spec
    (Qb : List (List ℚ) → List (List ℚ) → List ℚ) (B A : Nat)
    (states actions : List (List ℚ)) (eps : ℚ)
    (hQ : ∀ ss as, (Qb ss as).length = ss.length)
    (hB : states.length = B)
    (hrowA : ∀ row ∈ actions, row.length = A) :
    ((get_action_derivative Qb B A states actions eps).1.length = A ∧
     ∀ row ∈ (get_action_derivative Qb B A states actions eps).1,
       row.length = B) ∧
    (∀ i, i < A → ∀ j, j < B →
      ((get_action_derivative Qb B A states actions eps).1.getD i []).getD j 0 =
        ((Qb states (actions.map (fun row =>
            List.zipWith (fun x y => x + eps * y) row (unitVec A i)))).getD j 0 -
         (Qb states (actions.map (fun row =>
            List.zipWith (fun x y => x + (-eps) * y) row (unitVec A i)))).getD j 0)
          / (2 * eps)) ∧
    ((get_action_derivative Qb B A states actions eps).2 =
      (List.range A).flatMap (fun i =>
        [(states, perturbCol i eps actions),
         (states, perturbCol i (-eps) actions)]) ∧
     (get_action_derivative Qb B A states actions eps).2.length = 2 * A) := by
  obtain ⟨hL, hR, hcol, hcalls⟩ :=
    gad_loop_spec Qb B A states actions eps hQ hB A (le_refl A)
  rw [get_action_derivative_eq_fold]
  set r := (List.range A).foldl (gadStep Qb states actions eps)
    (List.replicate B (List.replicate A 0), []) with hr
  refine ⟨⟨?_, ?_⟩, ?_, ?_, ?_⟩
  · simp [transposeMat]
  · intro row hrow
    simp only [transposeMat, List.mem_map] at hrow
    obtain ⟨i, hi, rfl⟩ := hrow
    simp [columnOf, hL]
  · intro i hi j hj
    have hMi : (transposeMat A r.1).getD i [] = columnOf r.1 i := by
      simp [transposeMat, List.getD_eq_getElem?_getD, List.getElem?_map,
        List.getElem?_range hi]
    show ((transposeMat A r.1).getD i []).getD j 0 = _
    rw [hMi, hcol i hi,
      ← perturbCol_eq_add_unitVec actions A i hrowA hi eps,
      ← perturbCol_eq_add_unitVec actions A i hrowA hi (-eps)]
    have hjp : j < (Qb states (perturbCol i eps actions)).length := by
      rw [hQ, hB]; exact hj
    have hjm : j < (Qb states (perturbCol i (-eps) actions)).length := by
      rw [hQ, hB]; exact hj
    simp [fdColumn, List.getD_eq_getElem?_getD, List.getElem?_map,
      List.zip_eq_zipWith, List.getElem?_zipWith,
      List.getElem?_eq_getElem hjp, List.getElem?_eq_getElem hjm]
  · exact hcalls
  · show r.2.length = 2 * A
    rw [hcalls, flatMap_pair_length]
    simp

/-- A concrete batched critic used to instantiate the C1 theorem: the
value of sample `j` is the sum of the entries of action row `j`. -/
def QbW : List (List ℚ) → List (List ℚ) → List ℚ :=
  fun ss as => (List.range ss.length).map (fun j => (as.getD j []).foldl (· + ·) 0)

/-- Witness for C1: one sample, one action dimension, `eps = 1`; the
finite-difference entry matches the perturbed-critic formula. -/
theorem get_action_derivative_spec_witness :
    (∀ ss as : List (List ℚ), (QbW ss as).length = ss.length) ∧
    ([[(0 : ℚ)]] : List (List ℚ)).length = 1 ∧
    (∀ row ∈ ([[(3 : ℚ)]] : List (List ℚ)), row.length = 1) ∧
    ((get_action_derivative QbW 1 1 [[0]] [[3]] 1).1.getD 0 []).getD 0 0 =
      ((QbW [[0]] ([[3]].map (fun row =>
          List.zipWith (fun x y => x + 1 * y) row (unitVec 1 0)))).getD 0 0 -
       (QbW [[0]] ([[3]].map (fun row =>
          List.zipWith (fun x y => x + (-1) * y) row (unitVec 1 0)))).getD 0 0)
        / (2 * 1) := by
  have hQ : ∀ ss as : List (List ℚ), (QbW ss as).length = ss.length := by
    intro ss as
    simp [QbW]
  have hrowA : ∀ row ∈ ([[(3 : ℚ)]] : List (List ℚ)), row.length = 1 := by
    intro row hrow
    simp only [List.mem_singleton] at hrow
    simp [hrow]
  exact ⟨hQ, rfl, hrowA,
    (get_action_derivative_spec QbW 1 1 [[0]] [[3]] 1 hQ rfl hrowA).2.1
      0 (by omega) 0 (by omega)⟩

/-! ## Weight dictionaries and the target synchronizer
(`core/qac.py`, lines 55-64 and 337-356). -/

/-- Model of a Python `dict` with numeric values: the keys present, in
insertion order, and a total value map (only meaningful on `keys`). -/
structure WeightDict (K : Type) where
  keys : List K
  val : K → ℚ

/-- `d[k] = v`: overwrite if present, append the key otherwise. -/
def WeightDict.store [DecidableEq K] (d : WeightDict K) (k : K) (v : ℚ) :
    WeightDict K :=
  { keys := if k ∈ d.keys then d.keys else d.keys ++ [k]
    val := fun q => if q = k then v else d.val q }

/-- The two weight collections of a QBM critic (`w_hh` and `w_vh`). -/
structure CriticWeights (K1 K2 : Type) where
  w_hh : WeightDict K1
  w_vh : WeightDict K2

/-- The construction-time synchronization loop of `__init__`
(lines 57-60): `for k in critic.w_hh.keys(): target.w_hh[k] = critic.w_hh[k]`
and likewise for `w_vh`. -/
def copyCriticWeights [DecidableEq K1] [DecidableEq K2]
    (critic target : CriticWeights K1 K2) : CriticWeights K1 K2 :=
  { w_hh := critic.w_hh.keys.foldl
      (fun d k => d.store k (critic.w_hh.val k)) target.w_hh
    w_vh := critic.w_vh.keys.foldl
      (fun d k => d.store k (critic.w_vh.val k)) target.w_vh }

/-- One dictionary of the critic soft update:
`for k in local.keys(): target[k] = tau * local[k] + (1 - tau) * target[k]`. -/
def softUpdateDict [DecidableEq K] (tau : ℚ) (lw target : WeightDict K) :
    WeightDict K :=
  lw.keys.foldl
    (fun d k => d.store k (tau * lw.val k + (1 - tau) * d.val k)) target

/-- The critic part of `_soft_update_actor_and_critic` (lines 342-349). -/
def softUpdateCritic [DecidableEq K1] [DecidableEq K2] (tau : ℚ)
    (critic target : CriticWeights K1 K2) : CriticWeights K1 K2 :=
  { w_hh := softUpdateDict tau critic.w_hh target.w_hh
    w_vh := softUpdateDict tau critic.w_vh target.w_vh }

/-- The actor part of `_soft_update_actor_and_critic` (lines 352-356):
Polyak blend of the flat parameter snapshots. -/
def softUpdateActor (tau : ℚ) (wl wt : List ℚ) : List ℚ :=
  List.zipWith (fun l t => tau * l + (1 - tau) * t) wl wt

theorem WeightDict.mem_keys_store [DecidableEq K] (d : WeightDict K)
    (k k' : K) (v : ℚ) :
    k' ∈ (d.store k v).keys ↔ k' ∈ d.keys ∨ k' = k := by
  unfold WeightDict.store
  split_ifs with h
  · simp only []
    constructor
    · exact Or.inl
    · rintro (hk | rfl)
      · exact hk
      · exact h
  · simp

/-- Value map after a fold of stores whose written value depends only on
the key and the *current* stored value; for duplicate-free key lists the
current value at first write is the original one. -/
theorem foldl_store_val [DecidableEq K] (l : List K) (hnd : l.Nodup)
    (F : K → ℚ → ℚ) (d : WeightDict K) (k : K) :
    ((l.foldl (fun d k => d.store k (F k (d.val k))) d).val k) =
      if k ∈ l then F k (d.val k) else d.val k := by
  induction l generalizing d with
  | nil => simp
  | cons a l ih =>
      obtain ⟨ha, hndl⟩ := List.nodup_cons.mp hnd
      rw [List.foldl_cons, ih hndl]
      by_cases hkl : k ∈ l
      · have hka : k ≠ a := fun h => ha (h ▸ hkl)
        rw [if_pos hkl, if_pos (List.mem_cons_of_mem a hkl)]
        simp [WeightDict.store, hka]
      · by_cases hka : k = a
        · subst hka
          rw [if_neg hkl, if_pos (List.mem_cons_self k l)]
          simp [WeightDict.store]
        · rw [if_neg hkl,
            if_neg (by simp [hka, hkl])]
          simp [WeightDict.store, hka]

theorem foldl_store_keys [DecidableEq K] (l : List K)
    (G : WeightDict K → K → ℚ) (d : WeightDict K) (k : K) :
    (k ∈ (l.foldl (fun d q => d.store q (G d q)) d).keys) ↔
      k ∈ d.keys ∨ k ∈ l := by
  induction l generalizing d with
  | nil => simp
  | cons a l ih =>
      rw [List.foldl_cons, ih]
      rw [WeightDict.mem_keys_store]
      constructor
      · rintro ((h | h) | h)
        · exact Or.inl h
        · exact Or.inr (h ▸ List.mem_cons_self a l)
        · exact Or.inr (List.mem_cons_of_mem a h)
      · rintro (h | h)
        · exact Or.inl (Or.inl h)
        · rcases List.mem_cons.mp h with h | h
          · exact Or.inl (Or.inr h)
          · exact Or.inr h

theorem softUpdateActor_getD (tau : ℚ) (wl wt : List ℚ) (i : Nat)
    (h1 : i < wl.length) (h2 : i < wt.length) :
    (softUpdateActor tau wl wt).getD i 0 =
      tau * wl.getD i 0 + (1 - tau) * wt.getD i 0 := by
  have hz : i < (List.zipWith (fun l t => tau * l + (1 - tau) * t) wl wt).length := by
    rw [List.length_zipWith]; omega
  rw [softUpdateActor, List.getD_eq_getElem?_getD, List.getElem?_eq_getElem hz,
    List.getElem_zipWith]
  simp [List.getD_eq_getElem?_getD, List.getElem?_eq_getElem h1,
    List.getElem?_eq_getElem h2]

theorem softUpdateActor_one (wl wt : List ℚ) (h : wl.length = wt.length) :
    softUpdateActor 1 wl wt = wl := by
  unfold softUpdateActor
  induction wl generalizing wt with
  | nil => simp
  | cons x l ih =>
      cases wt with
      | nil => simp at h
      | cons y m =>
          simp only [List.zipWith_cons_cons, List.cons.injEq]
          exact ⟨by ring, ih m (by simpa using h)⟩

theorem softUpdateActor_zero (wl wt : List ℚ) (h : wl.length = wt.length) :
    softUpdateActor 0 wl wt = wt := by
  unfold softUpdateActor
  induction wl generalizing wt with
  | nil => cases wt with
      | nil => rfl
      | cons y m => simp at h
  | cons x l ih =>
      cases wt with
      | nil => simp at h
      | cons y m =>
          simp only [List.zipWith_cons_cons, List.cons.injEq]
          exact ⟨by ring, ih m (by simpa using h)⟩

/-- Claim C6: the target synchronizer applies
`target ← tau * local + (1 - tau) * target` independently to every key of
the critic's `w_hh`/`w_vh` mappings and to every entry of the actor's
parameter snapshot; with `tau = 1` a single call makes every target weight
an exact copy of its local counterpart, and with `tau = 0` a single call
leaves every target weight unchanged. -/
theorem soft_update_polyak_blend (K1 K2 : Type)
    [DecidableEq K1] [DecidableEq K2]
    (tau : ℚ) (c t : CriticWeights K1 K2) (wl wt : List ℚ)
    (hnd1 : c.w_hh.keys.Nodup) (hnd2 : c.w_vh.keys.Nodup)
    (hlen : wl.length = wt.length) :
    (∀ k ∈ c.w_hh.keys, (softUpdateCritic tau c t).w_hh.val k =
        tau * c.w_hh.val k + (1 - tau) * t.w_hh.val k) ∧
    (∀ k ∈ c.w_vh.keys, (softUpdateCritic tau c t).w_vh.val k =
        tau * c.w_vh.val k + (1 - tau) * t.w_vh.val k) ∧
    (∀ i, i < wl.length → (softUpdateActor tau wl wt).getD i 0 =
        tau * wl.getD i 0 + (1 - tau) * wt.getD i 0) ∧
    ((∀ k ∈ c.w_hh.keys, (softUpdateCritic 1 c t).w_hh.val k = c.w_hh.val k) ∧
     (∀ k ∈ c.w_vh.keys, (softUpdateCritic 1 c t).w_vh.val k = c.w_vh.val k) ∧
     softUpdateActor 1 wl wt = wl) ∧
    ((∀ k, (softUpdateCritic 0 c t).w_hh.val k = t.w_hh.val k) ∧
     (∀ k, (softUpdateCritic 0 c t).w_vh.val k = t.w_vh.val k) ∧
     softUpdateActor 0 wl wt = wt) := by
  have ghh : ∀ (τ : ℚ), ∀ k ∈ c.w_hh.keys,
      (softUpdateCritic τ c t).w_hh.val k =
        τ * c.w_hh.val k + (1 - τ) * t.w_hh.val k := by
    intro τ k hk
    have h := foldl_store_val c.w_hh.keys hnd1
      (fun q old => τ * c.w_hh.val q + (1 - τ) * old) t.w_hh k
    rw [if_pos hk] at h
    exact h
  have gvh : ∀ (τ : ℚ), ∀ k ∈ c.w_vh.keys,
      (softUpdateCritic τ c t).w_vh.val k =
        τ * c.w_vh.val k + (1 - τ) * t.w_vh.val k := by
    intro τ k hk
    have h := foldl_store_val c.w_vh.keys hnd2
      (fun q old => τ * c.w_vh.val q + (1 - τ) * old) t.w_vh k
    rw [if_pos hk] at h
    exact h
  have ghh0 : ∀ k, (softUpdateCritic 0 c t).w_hh.val k = t.w_hh.val k := by
    intro k
    have h := foldl_store_val c.w_hh.keys hnd1
      (fun q old => 0 * c.w_hh.val q + (1 - 0) * old) t.w_hh k
    by_cases hk : k ∈ c.w_hh.keys
    · rw [if_pos hk] at h
      exact h.trans (by ring)
    · rw [if_neg hk] at h
      exact h
  have gvh0 : ∀ k, (softUpdateCritic 0 c t).w_vh.val k = t.w_vh.val k := by
    intro k
    have h := foldl_store_val c.w_vh.keys hnd2
      (fun q old => 0 * c.w_vh.val q + (1 - 0) * old) t.w_vh k
    by_cases hk : k ∈ c.w_vh.keys
    · rw [if_pos hk] at h
      exact h.trans (by ring)
    · rw [if_neg hk] at h
      exact h
  refine ⟨ghh tau, gvh tau, ?_, ⟨?_, ?_, softUpdateActor_one wl wt hlen⟩,
    ⟨ghh0, gvh0, softUpdateActor_zero wl wt hlen⟩⟩
  · intro i hi
    exact softUpdateActor_getD tau wl wt i hi (by omega)
  · intro k hk
    rw [ghh 1 k hk]; ring
  · intro k hk
    rw [gvh 1 k hk]; ring

/-- Claim C5: the local and target critic weight mappings have identical
key sets at all times.  `QFunction` generation is not part of the sources;
per the spec the two freshly generated critics are structurally identical
(same key sets), taken as hypotheses `hkeys1`/`hkeys2`.  The
construction-time copy loop then makes the key sets identical (with the
target's values copied from the local critic), and every soft-update call
preserves the key sets, writing only to keys already present in both
mappings. -/
theorem critic_key_sets_identical (K1 K2 : Type)
    [DecidableEq K1] [DecidableEq K2]
    (c t : CriticWeights K1 K2) (tau : ℚ)
    (hnd1 : c.w_hh.keys.Nodup) (hnd2 : c.w_vh.keys.Nodup)
    (hkeys1 : ∀ k, k ∈ t.w_hh.keys ↔ k ∈ c.w_hh.keys)
    (hkeys2 : ∀ k, k ∈ t.w_vh.keys ↔ k ∈ c.w_vh.keys) :
    (∀ k, k ∈ (copyCriticWeights c t).w_hh.keys ↔ k ∈ c.w_hh.keys) ∧
    (∀ k, k ∈ (copyCriticWeights c t).w_vh.keys ↔ k ∈ c.w_vh.keys) ∧
    (∀ k ∈ c.w_hh.keys, (copyCriticWeights c t).w_hh.val k = c.w_hh.val k) ∧
    (∀ k ∈ c.w_vh.keys, (copyCriticWeights c t).w_vh.val k = c.w_vh.val k) ∧
    (∀ k, k ∈ (softUpdateCritic tau c t).w_hh.keys ↔ k ∈ c.w_hh.keys) ∧
    (∀ k, k ∈ (softUpdateCritic tau c t).w_vh.keys ↔ k ∈ c.w_vh.keys) ∧
    (∀ k, k ∉ c.w_hh.keys →
      (softUpdateCritic tau c t).w_hh.val k = t.w_hh.val k) ∧
    (∀ k, k ∉ c.w_vh.keys →
      (softUpdateCritic tau c t).w_vh.val k = t.w_vh.val k) := by
  refine ⟨?_, ?_, ?_, ?_, ?_, ?_, ?_, ?_⟩
  · intro k
    have h := foldl_store_keys c.w_hh.keys
      (fun _ q => c.w_hh.val q) t.w_hh k
    rw [hkeys1 k] at h
    exact h.trans (by tauto)
  · intro k
    have h := foldl_store_keys c.w_vh.keys
      (fun _ q => c.w_vh.val q) t.w_vh k
    rw [hkeys2 k] at h
    exact h.trans (by tauto)
  · intro k hk
    have h := foldl_store_val c.w_hh.keys hnd1
      (fun q _ => c.w_hh.val q) t.w_hh k
    rw [if_pos hk] at h
    exact h
  · intro k hk
    have h := foldl_store_val c.w_vh.keys hnd2
      (fun q _ => c.w_vh.val q) t.w_vh k
    rw [if_pos hk] at h
    exact h
  · intro k
    have h := foldl_store_keys c.w_hh.keys
      (fun d q => tau * c.w_hh.val q + (1 - tau) * d.val q) t.w_hh k
    rw [hkeys1 k] at h
    exact h.trans (by tauto)
  · intro k
    have h := foldl_store_keys c.w_vh.keys
      (fun d q => tau * c.w_vh.val q + (1 - tau) * d.val q) t.w_vh k
    rw [hkeys2 k] at h
    exact h.trans (by tauto)
  · intro k hk
    have h := foldl_store_val c.w_hh.keys hnd1
      (fun q old => tau * c.w_hh.val q + (1 - tau) * old) t.w_hh k
    rw [if_neg hk] at h
    exact h
  · intro k hk
    have h := foldl_store_val c.w_vh.keys hnd2
      (fun q old => tau * c.w_vh.val q + (1 - tau) * old) t.w_vh k
    rw [if_neg hk] at h
    exact h

/-- Concrete local critic weights used to instantiate C5/C6. -/
def cW5 : CriticWeights Nat Nat :=
  ⟨⟨[0, 1], fun k => (k : ℚ)⟩, ⟨[2], fun _ => 3⟩⟩

/-- Concrete target critic weights used to instantiate C5/C6. -/
def tW5 : CriticWeights Nat Nat :=
  ⟨⟨[0, 1], fun _ => 9⟩, ⟨[2], fun _ => 4⟩⟩

/-- Witness for C5: two-key `w_hh` and one-key `w_vh` dictionaries; the
construction copy keeps the key sets identical. -/
theorem critic_key_sets_identical_witness :
    ([0, 1] : List Nat).Nodup ∧
    (∀ k, k ∈ tW5.w_hh.keys ↔ k ∈ cW5.w_hh.keys) ∧
    (0 ∈ (copyCriticWeights cW5 tW5).w_hh.keys ↔ 0 ∈ cW5.w_hh.keys) :=
  ⟨by decide, fun _ => Iff.rfl,
    (critic_key_sets_identical Nat Nat cW5 tW5 (1/2) (by decide) (by decide)
      (fun _ => Iff.rfl) (fun _ => Iff.rfl)).1 0⟩

/-- Witness for C6: `tau = 1/2` blends key 0 of `w_hh` as
`tau * local + (1 - tau) * target`. -/
theorem soft_update_polyak_blend_witness :
    ([0, 1] : List Nat).Nodup ∧ ([2] : List Nat).Nodup ∧
    ([2, 2] : List ℚ).length = ([4, 6] : List ℚ).length ∧
    (softUpdateCritic (1/2) cW5 tW5).w_hh.val 0 =
      (1/2) * cW5.w_hh.val 0 + (1 - 1/2) * tW5.w_hh.val 0 :=
  ⟨by decide, by decide, rfl,
    (soft_update_polyak_blend Nat Nat (1/2) cW5 tW5 [2, 2] [4, 6]
      (by decide) (by decide) rfl).1 0 (by decide)⟩

/-! ## Critic training: `QuantumActorCritic.train_critic`
(`core/qac.py`, lines 293-334).  The QBM critic (`QFunction`) is opaque:
its single-sample evaluation `calculate_q_value` and its learning rule
`update_weights` enter as the abstract operations below. -/

/-- The opaque critic capability: `calculate_q_value` returns the Q-value
together with the internal representation (spin configurations and visible
nodes); `update_weights` consumes that representation plus
`(q, next_q, reward, learning_rate)` and yields new weights;
`small_gamma` is the discount factor. -/
structure CriticOps (W SC VN : Type) where
  calc_q : W → List ℚ → List ℚ → ℚ × SC × VN
  update_weights : W → SC → VN → ℚ → ℚ → ℚ → ℚ → W
  small_gamma : ℚ

/-- `np.mean` of a batch. -/
def listMean (l : List ℚ) : ℚ := l.sum / l.length

/-- The `next_actions` list computed before the loop: uniformly random
actions in the random phase (`env.action_space.sample()`, drawn values
supplied by `envs`), the target actor's batched prediction otherwise. -/
def tcNextActions (gta : List (List ℚ) → List (List ℚ))
    (envs : Nat → List ℚ) (next_states : List (List ℚ))
    (random_phase : Bool) : List (List ℚ) :=
  if random_phase then (List.range next_states.length).map envs
  else gta next_states

/-- One iteration `jj` of the `train_critic` loop: evaluate the local
critic on `(states[jj], actions[jj])`, then the target critic on
`(next_states[jj], next_actions[jj])` — the target call's tuple unpack
rebinds `visible_nodes` (qac.py line 322), so `update_weights` receives
the local evaluation's `spin_configs` together with the *target*
evaluation's visible nodes — update the local weights once, and record
the TD loss and the `update_weights` call. -/
def tcStep (ops : CriticOps W SC VN) (wt : W)
    (states next_states actions na : List (List ℚ)) (rewards : List ℚ)
    (lr : ℚ) (acc : W × List ℚ × List (SC × VN × ℚ × ℚ × ℚ × ℚ))
    (jj : Nat) : W × List ℚ × List (SC × VN × ℚ × ℚ × ℚ × ℚ) :=
  let qsv := ops.calc_q acc.1 (states.getD jj []) (actions.getD jj [])
  let nqsv := ops.calc_q wt (next_states.getD jj []) (na.getD jj [])
  let w' := ops.update_weights acc.1 qsv.2.1 nqsv.2.2 qsv.1 nqsv.1
    (rewards.getD jj 0) lr
  let q_target := rewards.getD jj 0 + ops.small_gamma * nqsv.1
  (w', acc.2.1 ++ [(qsv.1 - q_target) ^ 2],
    acc.2.2 ++ [(qsv.2.1, nqsv.2.2, qsv.1, nqsv.1, rewards.getD jj 0, lr)])

/-- Critic weights after the first `j` samples of the loop. -/
def criticWeightsAfter (ops : CriticOps W SC VN) (wt : W)
    (states next_states actions na : List (List ℚ)) (rewards : List ℚ)
    (lr : ℚ) (w : W) : Nat → W
  | 0 => w
  | j + 1 =>
      (tcStep ops wt states next_states actions na rewards lr
        (criticWeightsAfter ops wt states next_states actions na rewards lr w j,
          [], []) j).1

/-- The local critic evaluation of sample `j` (value and internal
representation), on the weights as updated by the previous samples. -/
def tcQ (ops : CriticOps W SC VN) (wt : W)
    (states next_states actions na : List (List ℚ)) (rewards : List ℚ)
    (lr : ℚ) (w : W) (j : Nat) : ℚ × SC × VN :=
  ops.calc_q (criticWeightsAfter ops wt states next_states actions na rewards lr w j)
    (states.getD j []) (actions.getD j [])

/-- The full target critic evaluation of sample `j` (value, spin
configurations and visible nodes). -/
def tcNextEval (ops : CriticOps W SC VN) (wt : W)
    (next_states na : List (List ℚ)) (j : Nat) : ℚ × SC × VN :=
  ops.calc_q wt (next_states.getD j []) (na.getD j [])

/-- The target critic value of sample `j`. -/
def tcNextQ (ops : CriticOps W SC VN) (wt : W)
    (next_states na : List (List ℚ)) (j : Nat) : ℚ :=
  (ops.calc_q wt (next_states.getD j []) (na.getD j [])).1

/-- The TD loss of sample `j`. -/
def tcLossAt (ops : CriticOps W SC VN) (wt : W)
    (states next_states actions na : List (List ℚ)) (rewards : List ℚ)
    (lr : ℚ) (w : W) (j : Nat) : ℚ :=
  ((tcQ ops wt states next_states actions na rewards lr w j).1 -
    (rewards.getD j 0 + ops.small_gamma * tcNextQ ops wt next_states na j)) ^ 2

/-- The arguments of the `update_weights` call of sample `j`: the local
evaluation's spin configurations, the visible nodes rebound by the target
evaluation (qac.py line 322), `q`, `next_q`, the reward and the learning
rate. -/
def tcCallAt (ops : CriticOps W SC VN) (wt : W)
    (states next_states actions na : List (List ℚ)) (rewards : List ℚ)
    (lr : ℚ) (w : W) (j : Nat) : SC × VN × ℚ × ℚ × ℚ × ℚ :=
  ((tcQ ops wt states next_states actions na rewards lr w j).2.1,
   (tcNextEval ops wt next_states na j).2.2,
   (tcQ ops wt states next_states actions na rewards lr w j).1,
   (tcNextEval ops wt next_states na j).1,
   rewards.getD j 0, lr)

/-- What `train_critic` produces: the updated local critic weights, the
per-sample TD-loss batch, the diagnostic loss trace with the batch mean
appended, and the sequence of `update_weights` calls made. -/
structure TrainCriticResult (W SC VN : Type) where
  w : W
  q_loss_batch : List ℚ
  q_losses : List ℚ
  update_calls : List (SC × VN × ℚ × ℚ × ℚ × ℚ)

/-- `QuantumActorCritic.train_critic`: compute `next_actions`, run the
sequential per-sample loop over `jj in np.arange(len(states))` threading
the mutated local critic weights, and append the batch-mean TD loss to the
diagnostic trace.  `dones` is accepted (as in the source) and never
used. -/
def train_critic (ops : CriticOps W SC VN) (wt : W)
    (gta : List (List ℚ) → List (List ℚ)) (envs : Nat → List ℚ)
    (w : W) (q_losses : List ℚ)
    (states next_states actions : List (List ℚ))
    (rewards dones : List ℚ) (random_phase : Bool) (lr : ℚ) :
    TrainCriticResult W SC VN :=
  let na := tcNextActions gta envs next_states random_phase
  let res := (List.range states.length).foldl
    (tcStep ops wt states next_states actions na rewards lr) (w, [], [])
  { w := res.1
    q_loss_batch := res.2.1
    q_losses := q_losses ++ [listMean res.2.1]
    update_calls := res.2.2 }

theorem tc_loop_closed (W SC VN : Type) (ops : CriticOps W SC VN) (wt : W)
    (states next_states actions na : List (List ℚ)) (rewards : List ℚ)
    (lr : ℚ) (w : W) :
    ∀ n, (List.range n).foldl
        (tcStep ops wt states next_states actions na rewards lr) (w, [], []) =
      (criticWeightsAfter ops wt states next_states actions na rewards lr w n,
       (List.range n).map (tcLossAt ops wt states next_states actions na rewards lr w),
       (List.range n).map (tcCallAt ops wt states next_states actions na rewards lr w)) := by
  intro n
  induction n with
  | zero => simp [criticWeightsAfter]
  | succ n ih =>
      rw [List.range_succ, List.foldl_append, List.foldl_cons, List.foldl_nil, ih]
      simp only [List.range_succ, List.map_append, List.map_cons, List.map_nil]
      simp [tcStep, criticWeightsAfter, tcCallAt, tcLossAt, tcQ, tcNextQ,
        tcNextEval]

/-- Concrete critic operations making the two internal representations
observable: the visible nodes of an evaluation are `100 * w + sum(state)`,
so evaluations by different critics on different states are
distinguishable. -/
def opsB : CriticOps ℚ ℚ ℚ :=
  { calc_q := fun w s a => (w + a.sum, s.sum, 100 * w + s.sum)
    update_weights := fun w _ _ _ _ _ _ => w
    small_gamma := 1/2 }

/-- Claim C3 (code bug): the loop does evaluate the local critic at
`(state_j, action_j)` and the target critic at
`(next_state_j, next_action_j)` and calls `update_weights` once per
sample, but the target call's tuple unpack rebinds `visible_nodes`
(qac.py line 322; the fresh name `spin_configurations` bound there is
never used), so the `update_weights` call receives the local
`spin_configs` paired with the *target* evaluation's visible nodes — not
that sample's own internal representation as the claim states.
Concretely: local weights `1` on state `[1]` give visible nodes `101`,
the target weights `2` on next state `[2]` give `202`, and the single
update call of this one-sample batch carries `202`. -/
theorem train_critic_passes_target_visible_nodes :
    ((train_critic opsB 2 (fun ns => ns) (fun _ => []) 1 []
        [[1]] [[2]] [[0]] [1] [0] false 1).update_calls.map
          (fun c => c.2.1)) = [202] ∧
    (opsB.calc_q 1 [1] [0]).2.2 = 101 ∧
    (opsB.calc_q 2 [2] [2]).2.2 = 202 ∧
    (202 : ℚ) ≠ 101 := by
  refine ⟨?_, by norm_num [opsB], by norm_num [opsB], by norm_num⟩
  norm_num [train_critic, tcStep, tcNextActions, opsB, List.range_succ]

/-- Claim C9: the behaviour of `train_critic` is entirely independent of
the `dones` argument: two calls differing only in `dones` produce the same
weight updates, the same TD losses, the same diagnostic trace and the same
`update_weights` calls — terminal flags never zero out `next_q` in the TD
target. -/
theorem train_critic_independent_of_dones (W SC VN : Type)
    (ops : CriticOps W SC VN) (wt : W)
    (gta : List (List ℚ) → List (List ℚ)) (envs : Nat → List ℚ)
    (w : W) (q_losses : List ℚ)
    (states next_states actions : List (List ℚ)) (rewards : List ℚ)
    (dones1 dones2 : List ℚ) (random_phase : Bool) (lr : ℚ) :
    train_critic ops wt gta envs w q_losses states next_states actions
      rewards dones1 random_phase lr =
    train_critic ops wt gta envs w q_losses states next_states actions
      rewards dones2 random_phase lr := rfl

/-! ## Training orchestrator: `QuantumActorCritic.train`
(`core/qac.py`, lines 358-382). -/

/-- The observable steps of one `train()` call, in execution order. -/
inductive TrainEvent where
  | sample (batch_size : Nat)
  | criticTrain
  | actorTrain
  | softUpdate
  deriving DecidableEq, Repr

/-- The trainer's mutable state: experience store, local and target critic
weight collections, local and target actor parameter snapshots, the
diagnostic loss trace, the recorded event trace, and the fixed
hyperparameters. -/
structure AgentState (M K1 K2 : Type) where
  memory : M
  critic : CriticWeights K1 K2
  critic_target : CriticWeights K1 K2
  actor_w : List ℚ
  actor_target_w : List ℚ
  q_losses : List ℚ
  events : List TrainEvent
  replay_batch_size : Nat
  tau_soft_update : ℚ
  critic_learning_rate : ℚ

/-- The opaque collaborators of `train()`.  `get_sample` — Modelled from
the spec: class `Memory` (`replay_memory.get_sample`) is not among the
sources; per the spec it samples a minibatch of `batch_size` transitions
from the experience store (here also threading the sampler state).
`critic_ops` is the opaque QBM critic; `predict_target` is
`actor_target.predict_on_batch` as a function of that network's parameter
snapshot; `train_on_batch` is keras `Model.train_on_batch` as a function
of the actor's parameter snapshot; `envs` supplies
`env.action_space.sample()` draws. -/
structure AgentOps (M SC VN K1 K2 : Type) where
  get_sample : M → Nat → SampleBatch × M
  critic_ops : CriticOps (CriticWeights K1 K2) SC VN
  predict_target : List ℚ → List (List ℚ) → List (List ℚ)
  train_on_batch : List ℚ → List (List ℚ) → List (List ℚ) → List ℚ
  envs : Nat → List ℚ

/-- Step 1 of `train()`: sample one minibatch of `replay_batch_size`
transitions from the experience store. -/
def agent_sample (ops : AgentOps M SC VN K1 K2) (st : AgentState M K1 K2) :
    SampleBatch × AgentState M K1 K2 :=
  let bm := ops.get_sample st.memory st.replay_batch_size
  (bm.1, { st with memory := bm.2
                   events := st.events ++ [TrainEvent.sample st.replay_batch_size] })

/-- Step 2 of `train()`: `self.train_critic(states, next_states, actions,
rewards, dones)` with `random_phase` left at its default `False`. -/
def agent_train_critic (ops : AgentOps M SC VN K1 K2)
    (st : AgentState M K1 K2) (batch : SampleBatch) : AgentState M K1 K2 :=
  let res := train_critic ops.critic_ops st.critic_target
    (ops.predict_target st.actor_target_w) ops.envs st.critic st.q_losses
    batch.s batch.s2 batch.a batch.r batch.d false st.critic_learning_rate
  { st with critic := res.w
            q_losses := res.q_losses
            events := st.events ++ [TrainEvent.criticTrain] }

/-- Step 3 of `train()`: `self.train_actor(states, actions)`, which runs
`self.actor.train_on_batch(states, states)`. -/
def agent_train_actor (ops : AgentOps M SC VN K1 K2)
    (st : AgentState M K1 K2) (batch : SampleBatch) : AgentState M K1 K2 :=
  { st with actor_w := ops.train_on_batch st.actor_w batch.s batch.s
            events := st.events ++ [TrainEvent.actorTrain] }

/-- Step 4 of `train()`: `self._soft_update_actor_and_critic()`. -/
def agent_soft_update [DecidableEq K1] [DecidableEq K2]
    (st : AgentState M K1 K2) : AgentState M K1 K2 :=
  { st with critic_target :=
      softUpdateCritic st.tau_soft_update st.critic st.critic_target
            actor_target_w :=
      softUpdateActor st.tau_soft_update st.actor_w st.actor_target_w
            events := st.events ++ [TrainEvent.softUpdate] }

/-- `QuantumActorCritic.train`: sample, train the critic, train the actor,
then run the target synchronizer. -/
def train [DecidableEq K1] [DecidableEq K2] (ops : AgentOps M SC VN K1 K2)
    (st : AgentState M K1 K2) : AgentState M K1 K2 :=
  let bs := agent_sample ops st
  let st2 := agent_train_critic ops bs.2 bs.1
  let st3 := agent_train_actor ops st2 bs.1
  agent_soft_update st3

/-- Claim C2: every `train()` call performs, in this fixed order: sample
one minibatch of `replay_batch_size` transitions, run the critic training
step on it, run one actor training step, then run the target synchronizer
exactly once — after both the critic and the actor have been updated,
blending the freshly updated local weights into the targets. -/
theorem train_pipeline_order (M SC VN K1 K2 : Type)
    [DecidableEq K1] [DecidableEq K2]
    (ops : AgentOps M SC VN K1 K2) (st : AgentState M K1 K2) :
    (train ops st).events = st.events ++
      [TrainEvent.sample st.replay_batch_size, TrainEvent.criticTrain,
       TrainEvent.actorTrain, TrainEvent.softUpdate] ∧
    ((train ops st).events.drop st.events.length).count
      TrainEvent.softUpdate = 1 ∧
    ((train ops st).events.drop st.events.length).drop 3 =
      [TrainEvent.softUpdate] ∧
    (train ops st).critic =
      (train_critic ops.critic_ops st.critic_target
        (ops.predict_target st.actor_target_w) ops.envs st.critic st.q_losses
        (ops.get_sample st.memory st.replay_batch_size).1.s
        (ops.get_sample st.memory st.replay_batch_size).1.s2
        (ops.get_sample st.memory st.replay_batch_size).1.a
        (ops.get_sample st.memory st.replay_batch_size).1.r
        (ops.get_sample st.memory st.replay_batch_size).1.d
        false st.critic_learning_rate).w ∧
    (train ops st).actor_w =
      ops.train_on_batch st.actor_w
        (ops.get_sample st.memory st.replay_batch_size).1.s
        (ops.get_sample st.memory st.replay_batch_size).1.s ∧
    (train ops st).critic_target =
      softUpdateCritic st.tau_soft_update (train ops st).critic
        st.critic_target ∧
    (train ops st).actor_target_w =
      softUpdateActor st.tau_soft_update (train ops st).actor_w
        st.actor_target_w := by
  refine ⟨?_, ?_, ?_, rfl, rfl, rfl, rfl⟩
  · simp [train, agent_sample, agent_train_critic, agent_train_actor,
      agent_soft_update]
  · have hev : (train ops st).events = st.events ++
        [TrainEvent.sample st.replay_batch_size, TrainEvent.criticTrain,
         TrainEvent.actorTrain, TrainEvent.softUpdate] := by
      simp [train, agent_sample, agent_train_critic, agent_train_actor,
        agent_soft_update]
    rw [hev, List.drop_left]
    rfl
  · have hev : (train ops st).events = st.events ++
        [TrainEvent.sample st.replay_batch_size, TrainEvent.criticTrain,
         TrainEvent.actorTrain, TrainEvent.softUpdate] := by
      simp [train, agent_sample, agent_train_critic, agent_train_actor,
        agent_soft_update]
    rw [hev, List.drop_left]
    rfl
